import Mathlib

/-!
Verification of the flow-writer document pipeline specification.

The repository's design documents describe a parsing/validation/resolution
pipeline (structural parser, variable resolver, diagram grammar parser,
structural validator, graph validator, document assembler) but ship no
executable implementation of it; the executable JavaScript in the repository
covers only the frontend transforms (`sectionsToBlocks`, the document-state
reducers).  The pipeline components below are therefore modelled from the
specification text, while `sectionsToBlocks` and `deleteBlock` are shallow
embeddings of the actual JavaScript source.
-/

namespace FlowWriter

/-! ## Variable resolver -/

/-- Modelled from the spec: first character of a placeholder identifier,
matching `[A-Za-z_]` (§4.2: identifier matches `[A-Za-z_][A-Za-z0-9_]*`). -/
def isIdentStart (c : Char) : Bool :=
  (('a' ≤ c && c ≤ 'z') || ('A' ≤ c && c ≤ 'Z')) || c == '_'

/-- Modelled from the spec: subsequent character of a placeholder identifier,
matching `[A-Za-z0-9_]`. -/
def isIdentChar (c : Char) : Bool :=
  isIdentStart c || ('0' ≤ c && c ≤ '9')

/-- Look up a variable by name in the document's variable list
(`build_variable_map` in the design document produces a name → value map;
names are unique, so first match is the binding). -/
def lookupVar (vars : List (String × String)) (name : String) : Option String :=
  (vars.find? (fun p => p.1 == name)).map (fun p => p.2)

/-- Attempt to read `{ident}` (the part of a placeholder after the `$`) at
the head of the input, with `ident` matching `[A-Za-z_][A-Za-z0-9_]*`;
returns the identifier and the input after the closing brace. -/
def matchPlaceholder (l : List Char) : Option (String × List Char) :=
  match l with
  | '{' :: rest2 =>
    match rest2.takeWhile isIdentChar, rest2.dropWhile isIdentChar with
    | c :: cs, '}' :: rest4 =>
      if isIdentStart c then some (String.mk (c :: cs), rest4) else none
    | _, _ => none
  | _ => none

/-- Modelled from the spec: single-pass left-to-right scan of
`resolve_variables` (§4.2, regex `\$\{([a-zA-Z_][a-zA-Z0-9_]*)\}`).
Each well-formed placeholder `${ident}` is replaced by the bound value when
the identifier is bound, and is kept verbatim otherwise; substituted values
are never re-scanned (no recursive substitution).  The `fuel` argument makes
the recursion structural; any `fuel ≥` input length yields the scan's value
(`resolveFuel_congr`). -/
def resolveFuel (vars : List (String × String)) : Nat → List Char → List Char
  | 0, l => l
  | _ + 1, [] => []
  | fuel + 1, c :: rest =>
    if c = '$' then
      match matchPlaceholder rest with
      | some (name, rest') =>
        match lookupVar vars name with
        | some v => v.data ++ resolveFuel vars fuel rest'
        | none => '$' :: '{' :: (name.data ++ '}' :: resolveFuel vars fuel rest')
      | none => '$' :: resolveFuel vars fuel rest
    else c :: resolveFuel vars fuel rest

/-- The resolver scan on character lists, run with sufficient fuel. -/
def resolveChars (vars : List (String × String)) (l : List Char) : List Char :=
  resolveFuel vars l.length l

/-- Modelled from the spec: `resolve(text, variables) -> text'` (§4.2). -/
def resolve (text : String) (vars : List (String × String)) : String :=
  String.mk (resolveChars vars text.data)

/-- Whether a character list still contains a well-formed `${ident}`
placeholder; mirrors the scan of `resolveFuel`. -/
def hasPlaceholderAux : List Char → Bool
  | [] => false
  | c :: rest =>
    if c = '$' then
      match matchPlaceholder rest with
      | some _ => true
      | none => hasPlaceholderAux rest
    else hasPlaceholderAux rest

/-- Whether a string still contains a well-formed `${ident}` placeholder. -/
def hasPlaceholder (s : String) : Bool :=
  hasPlaceholderAux s.data

/-- A valid placeholder identifier: `[A-Za-z_][A-Za-z0-9_]*`. -/
def isValidIdent (s : String) : Bool :=
  match s.data with
  | [] => false
  | c :: cs => isIdentStart c && cs.all isIdentChar

example : resolve "Hello ${missing}" [] = "Hello ${missing}" := by decide
example : resolve "Goal: ${goal}" [("goal", "Ship v1")] = "Goal: Ship v1" := by decide
example : hasPlaceholder "Goal: ${goal}" = true := by decide
example : hasPlaceholder "Goal: Ship v1" = false := by decide

/-! ### Resolver lemmas -/

lemma length_dropWhile_le (p : Char → Bool) (l : List Char) :
    (l.dropWhile p).length ≤ l.length := by
  induction l with
  | nil => simp [List.dropWhile]
  | cons a l ih =>
    rw [List.dropWhile_cons]
    split
    · exact Nat.le_succ_of_le ih
    · exact Nat.le_refl _

lemma takeWhile_all_append {p : Char → Bool} (xs : List Char) (y : Char) (ys : List Char)
    (hxs : ∀ c ∈ xs, p c = true) (hy : p y = false) :
    (xs ++ y :: ys).takeWhile p = xs ∧ (xs ++ y :: ys).dropWhile p = y :: ys := by
  induction xs with
  | nil => simp [List.takeWhile_cons, List.dropWhile_cons, hy]
  | cons a xs ih =>
    have ha : p a = true := hxs a (by simp)
    obtain ⟨h1, h2⟩ := ih (fun c hc => hxs c (by simp [hc]))
    simp [List.takeWhile_cons, List.dropWhile_cons, ha, h1, h2]

lemma matchPlaceholder_some {l : List Char} {name : String} {rest' : List Char}
    (h : matchPlaceholder l = some (name, rest')) :
    isValidIdent name = true ∧ l = '{' :: (name.data ++ '}' :: rest') := by
  unfold matchPlaceholder at h
  split at h
  · rename_i rest2
    split at h
    · rename_i c cs rest4 htak hdrp
      split at h
      · rename_i hstart
        have h2 := Option.some.inj h
        have hname : String.mk (c :: cs) = name := congrArg Prod.fst h2
        have hrest : rest4 = rest' := congrArg Prod.snd h2
        subst hrest
        have hall : ∀ x ∈ c :: cs, isIdentChar x = true := by
          intro x hx
          apply List.mem_takeWhile_imp (l := rest2) (p := isIdentChar)
          rw [htak]
          exact hx
        constructor
        · rw [← hname]
          show (isIdentStart c && cs.all isIdentChar) = true
          simp only [Bool.and_eq_true, List.all_eq_true]
          exact ⟨hstart, fun x hx => hall x (List.mem_cons_of_mem _ hx)⟩
        · rw [← hname]
          show '{' :: rest2 = '{' :: ((c :: cs) ++ '}' :: rest4)
          have hrest2 : rest2 = (c :: cs) ++ '}' :: rest4 := by
            conv_lhs => rw [← List.takeWhile_append_dropWhile (p := isIdentChar) (l := rest2)]
            rw [htak, hdrp]
          rw [hrest2]
      · exact absurd h (by simp)
    · exact absurd h (by simp)
  · exact absurd h (by simp)

lemma matchPlaceholder_mk {name : String} (t : List Char) (h : isValidIdent name = true) :
    matchPlaceholder ('{' :: (name.data ++ '}' :: t)) = some (name, t) := by
  rcases hd : name.data with _ | ⟨c, cs⟩
  · unfold isValidIdent at h
    rw [hd] at h
    simp at h
  · unfold isValidIdent at h
    rw [hd] at h
    simp only [Bool.and_eq_true, List.all_eq_true] at h
    obtain ⟨hstart, hall⟩ := h
    have hmem : ∀ x ∈ c :: cs, isIdentChar x = true := by
      intro x hx
      rcases List.mem_cons.mp hx with rfl | hx
      · unfold isIdentChar
        simp [hstart]
      · exact hall x hx
    obtain ⟨h1, h2⟩ := takeWhile_all_append (c :: cs) '}' t hmem (by decide)
    have hred : matchPlaceholder ('{' :: ((c :: cs) ++ '}' :: t)) =
        match ((c :: cs) ++ '}' :: t).takeWhile isIdentChar,
              ((c :: cs) ++ '}' :: t).dropWhile isIdentChar with
        | c :: cs, '}' :: rest4 =>
          if isIdentStart c then some (String.mk (c :: cs), rest4) else none
        | _, _ => none := rfl
    rw [hred, h1, h2]
    show (if isIdentStart c then some (String.mk (c :: cs), t) else none) = some (name, t)
    rw [if_pos hstart]
    have hn : String.mk (c :: cs) = name := (congrArg String.mk hd).symm
    rw [hn]

lemma matchPlaceholder_length {l : List Char} {name : String} {rest' : List Char}
    (h : matchPlaceholder l = some (name, rest')) : rest'.length < l.length := by
  obtain ⟨-, rfl⟩ := matchPlaceholder_some h
  simp
  omega

lemma resolveFuel_nil (vars : List (String × String)) (fuel : Nat) :
    resolveFuel vars fuel [] = [] := by
  cases fuel <;> rfl

lemma resolveFuel_congr (vars : List (String × String)) :
    ∀ (fuel fuel' : Nat) (l : List Char), l.length ≤ fuel → l.length ≤ fuel' →
      resolveFuel vars fuel l = resolveFuel vars fuel' l := by
  intro fuel
  induction fuel with
  | zero =>
    intro fuel' l h _
    obtain rfl : l = [] := List.length_eq_zero.mp (Nat.le_zero.mp h)
    simp [resolveFuel_nil]
  | succ f ih =>
    intro fuel' l h h'
    cases fuel' with
    | zero =>
      obtain rfl : l = [] := List.length_eq_zero.mp (Nat.le_zero.mp h')
      simp [resolveFuel_nil]
    | succ f' =>
      cases l with
      | nil => rfl
      | cons c rest =>
        have hrest : rest.length ≤ f := by simp at h; omega
        have hrest' : rest.length ≤ f' := by simp at h'; omega
        by_cases hc : c = '$'
        · subst hc
          rcases hmp : matchPlaceholder rest with _ | ⟨name, rest'⟩
          · simp only [resolveFuel, hmp]
            simp only [List.cons.injEq, true_and, reduceIte]
            exact ih f' rest hrest hrest'
          · have hlt := matchPlaceholder_length hmp
            have hr : rest'.length ≤ f := by omega
            have hr' : rest'.length ≤ f' := by omega
            simp only [resolveFuel, hmp]
            simp [ih f' rest' hr hr']
        · simp only [resolveFuel, if_neg hc]
          rw [ih f' rest hrest hrest']

lemma resolveChars_eq_fuel (vars : List (String × String)) (fuel : Nat) (l : List Char)
    (h : l.length ≤ fuel) : resolveChars vars l = resolveFuel vars fuel l :=
  resolveFuel_congr vars l.length fuel l (Nat.le_refl _) h

lemma resolveFuel_no_placeholder (vars : List (String × String)) :
    ∀ (fuel : Nat) (l : List Char), l.length ≤ fuel →
      hasPlaceholderAux l = false → resolveFuel vars fuel l = l := by
  intro fuel
  induction fuel with
  | zero =>
    intro l h _
    obtain rfl : l = [] := List.length_eq_zero.mp (Nat.le_zero.mp h)
    rfl
  | succ f ih =>
    intro l h hnp
    cases l with
    | nil => rfl
    | cons c rest =>
      have hrest : rest.length ≤ f := by simp at h; omega
      simp only [resolveFuel]
      by_cases hc : c = '$'
      · subst hc
        simp only [if_pos]
        unfold hasPlaceholderAux at hnp
        simp only [if_pos] at hnp
        cases hmp : matchPlaceholder rest with
        | some pr => rw [hmp] at hnp; simp at hnp
        | none =>
          rw [hmp] at hnp
          rw [ih rest hrest hnp]
      · simp only [if_neg hc]
        unfold hasPlaceholderAux at hnp
        simp only [if_neg hc] at hnp
        rw [ih rest hrest hnp]

lemma resolveFuel_skip_front (vars : List (String × String)) :
    ∀ (p : List Char) (fuel : Nat) (l : List Char), (∀ c ∈ p, c ≠ '$') →
      (p ++ l).length ≤ fuel →
      resolveFuel vars fuel (p ++ l) = p ++ resolveFuel vars (fuel - p.length) l := by
  intro p
  induction p with
  | nil => intro fuel l _ _; simp
  | cons a p ih =>
    intro fuel l hp h
    have ha : a ≠ '$' := hp a (by simp)
    cases fuel with
    | zero => simp at h
    | succ f =>
      simp only [List.cons_append, resolveFuel, if_neg ha, List.append_eq]
      rw [ih f l (fun c hc => hp c (by simp [hc])) (by simp at h ⊢; omega)]
      simp [Nat.succ_sub_succ]

lemma resolveFuel_placeholder (vars : List (String × String)) (name : String)
    (t : List Char) (fuel : Nat) (hname : isValidIdent name = true)
    (h : ('$' :: '{' :: (name.data ++ '}' :: t)).length ≤ fuel) :
    resolveFuel vars fuel ('$' :: '{' :: (name.data ++ '}' :: t)) =
      match lookupVar vars name with
      | some v => v.data ++ resolveChars vars t
      | none => '$' :: '{' :: (name.data ++ '}' :: resolveChars vars t) := by
  cases fuel with
  | zero => simp at h
  | succ f =>
    have ht : t.length ≤ f := by simp at h; omega
    simp only [resolveFuel, if_pos, matchPlaceholder_mk t hname]
    cases hlk : lookupVar vars name with
    | some v => rw [← resolveChars_eq_fuel vars f t ht]
    | none => rw [← resolveChars_eq_fuel vars f t ht]

lemma string_data_append (a b : String) : (a ++ b).data = a.data ++ b.data := rfl

/-! ### Claim theorems: variable resolver -/

/-- **C1** For every input text and every variable map, `resolve` replaces each
well-formed placeholder `${identifier}` whose identifier has a binding in the
variable map by that variable's value, and leaves every placeholder whose
identifier has no binding verbatim in the output; `resolve` is a total
function, so it never raises an error for a missing variable.  In particular
`resolve "Hello ${missing}" [] = "Hello ${missing}"`. -/
theorem resolve_placeholder_policy (p name t : String) (vars : List (String × String))
    (hp : ∀ c ∈ p.data, c ≠ '$') (hname : isValidIdent name = true) :
    (∀ v, lookupVar vars name = some v →
        resolve (p ++ "$\x7b" ++ name ++ "\x7d" ++ t) vars = p ++ v ++ resolve t vars) ∧
    (lookupVar vars name = none →
        resolve (p ++ "$\x7b" ++ name ++ "\x7d" ++ t) vars =
          p ++ "$\x7b" ++ name ++ "\x7d" ++ resolve t vars) ∧
    resolve "Hello ${missing}" [] = "Hello ${missing}" := by
  have hdata : (p ++ "$\x7b" ++ name ++ "\x7d" ++ t).data
      = p.data ++ ('$' :: '{' :: (name.data ++ '}' :: t.data)) := by
    rw [string_data_append, string_data_append, string_data_append, string_data_append]
    show (((p.data ++ ['$', '{']) ++ name.data) ++ ['}']) ++ t.data
        = p.data ++ ('$' :: '{' :: (name.data ++ '}' :: t.data))
    simp
  have key : resolveChars vars (p.data ++ ('$' :: '{' :: (name.data ++ '}' :: t.data)))
      = p.data ++ (match lookupVar vars name with
          | some v => v.data ++ resolveChars vars t.data
          | none => '$' :: '{' :: (name.data ++ '}' :: resolveChars vars t.data)) := by
    unfold resolveChars
    rw [resolveFuel_skip_front vars p.data _ _ hp (Nat.le_refl _)]
    congr 1
    have hlen : (p.data ++ ('$' :: '{' :: (name.data ++ '}' :: t.data))).length - p.data.length
        = ('$' :: '{' :: (name.data ++ '}' :: t.data)).length := by simp
    rw [hlen]
    exact resolveFuel_placeholder vars name t.data _ hname (Nat.le_refl _)
  refine ⟨?_, ?_, by decide⟩
  · intro v hv
    apply String.ext
    show resolveChars vars (p ++ "$\x7b" ++ name ++ "\x7d" ++ t).data = (p ++ v ++ resolve t vars).data
    rw [hdata, key, hv]
    show p.data ++ (v.data ++ resolveChars vars t.data)
        = ((p.data ++ v.data) ++ resolveChars vars t.data)
    simp
  · intro hv
    apply String.ext
    show resolveChars vars (p ++ "$\x7b" ++ name ++ "\x7d" ++ t).data
        = (p ++ "$\x7b" ++ name ++ "\x7d" ++ resolve t vars).data
    rw [hdata, key, hv]
    show p.data ++ ('$' :: '{' :: (name.data ++ '}' :: resolveChars vars t.data))
        = ((((p.data ++ ['$', '{']) ++ name.data) ++ ['}']) ++ resolveChars vars t.data)
    simp

/-- Witness for C1: with `goal ↦ World` bound, the placeholder in
`"Hello ${goal}!"` is substituted; hypotheses discharged at concrete input. -/
theorem resolve_placeholder_policy_witness :
    resolve ("Hello " ++ "$\x7b" ++ "goal" ++ "\x7d" ++ "!") [("goal", "World")]
      = "Hello " ++ "World" ++ resolve "!" [("goal", "World")] :=
  (resolve_placeholder_policy "Hello " "goal" "!" [("goal", "World")]
    (by decide) (by decide)).1 "World" (by decide)

/-- **C8** For every text and variable map such that `resolve text vars`
contains no remaining `${identifier}` placeholder, a second pass is the
identity: the resolution is single-pass and values are not re-scanned, so
re-resolving a placeholder-free result changes nothing. -/
theorem resolve_second_pass_identity (text : String) (vars : List (String × String))
    (h : hasPlaceholder (resolve text vars) = false) :
    resolve (resolve text vars) vars = resolve text vars := by
  apply String.ext
  show resolveChars vars (resolveChars vars text.data) = resolveChars vars text.data
  exact resolveFuel_no_placeholder vars _ _ (Nat.le_refl _) h

/-- Witness for C8 at a concrete input whose single pass leaves no
placeholder. -/
theorem resolve_second_pass_identity_witness :
    resolve (resolve "Goal: ${goal}" [("goal", "Ship v1")]) [("goal", "Ship v1")]
      = resolve "Goal: ${goal}" [("goal", "Ship v1")] :=
  resolve_second_pass_identity "Goal: ${goal}" [("goal", "Ship v1")] (by decide)

/-! ## Structural document model -/

/-- Modelled from the spec: a content section as found by the structural
parser (§3).  `children` holds sections nested inside this one as they occur
in the raw input; the flat-section invariant requires it to be empty. -/
structure RawSection where
  id : String
  sectionType : String
  content : Option String
  refTarget : Option String
  children : List RawSection

/-- Modelled from the spec: the metadata block (§3); every field is required,
absence (`none`) is a structural violation. -/
structure Metadata where
  title : Option String
  author : Option String
  created : Option String
  appName : Option String
  appVersion : Option String
  tags : Option String
  description : Option String
deriving DecidableEq

/-- Modelled from the spec: the parsed document tree handed to the validator
and assembler (§3): metadata, variable list (`vars`, since `variables` is a
reserved word in Lean), section list, optional diagram text. -/
structure RawDocument where
  meta : Metadata
  vars : List (String × String)
  sections : List RawSection
  diagram : Option String

/-- Modelled from the spec/design document (`validate_flat_sections`): a
section containing a nested section is a fatal parse-time structural error
(fail fast, never silently flattened). -/
def validate_flat_sections (sections : List RawSection) : Except String Unit :=
  if sections.any (fun s => !s.children.isEmpty) then
    Except.error "Section nesting not allowed"
  else Except.ok ()

/-- Modelled from the spec: the kinds of structural violations (§7). -/
inductive ViolationKind where
  | missingField
  | duplicateId
  | invalidEnumValue
  | nestedSection
  | invalidTimestamp
deriving DecidableEq

/-- A named structural violation. -/
structure Violation where
  kind : ViolationKind
  subject : String
deriving DecidableEq

/-- Modelled from the spec: the closed section-type enumeration
{intent, evaluation, process, alternatives} (§3). -/
def sectionTypeValid (t : String) : Bool :=
  t == "intent" || t == "evaluation" || t == "process" || t == "alternatives"

/-- Rule §4.4: every section must be non-nested (defense in depth). -/
def nestedSectionViolations (ss : List RawSection) : List Violation :=
  ss.filterMap (fun s =>
    if s.children.isEmpty then none else some ⟨ViolationKind.nestedSection, s.id⟩)

/-- Rule §4.4: section type must belong to the closed enumeration. -/
def enumViolations (ss : List RawSection) : List Violation :=
  ss.filterMap (fun s =>
    if sectionTypeValid s.sectionType then none else some ⟨ViolationKind.invalidEnumValue, s.id⟩)

/-- Scan for duplicated section identifiers, reporting each occurrence after
the first. -/
def dupIdScan (seen : List String) : List RawSection → List Violation
  | [] => []
  | s :: rest =>
    if s.id ∈ seen then ⟨ViolationKind.duplicateId, s.id⟩ :: dupIdScan seen rest
    else dupIdScan (s.id :: seen) rest

/-- Rule §4.4: section identifiers are unique across the whole document. -/
def duplicateIdViolations (ss : List RawSection) : List Violation :=
  dupIdScan [] ss

/-- Rule §4.4: every section has non-null content (empty string permitted,
absent field is not). -/
def contentViolations (ss : List RawSection) : List Violation :=
  ss.filterMap (fun s =>
    match s.content with
    | some _ => none
    | none => some ⟨ViolationKind.missingField, s.id⟩)

/-- A required metadata field: absent is a missing-field violation. -/
def requiredField (fieldName : String) : Option String → List Violation
  | none => [⟨ViolationKind.missingField, fieldName⟩]
  | some _ => []

/-- Rule §4.4: metadata required fields present, creation timestamp
syntactically valid.  The spec does not fix the timestamp grammar, so the
syntactic validity check is a parameter. -/
def metadataViolations (validTimestamp : String → Bool) (m : Metadata) : List Violation :=
  requiredField "title" m.title ++
  requiredField "author" m.author ++
  (match m.created with
   | none => [⟨ViolationKind.missingField, "created"⟩]
   | some ts => if validTimestamp ts then [] else [⟨ViolationKind.invalidTimestamp, "created"⟩]) ++
  requiredField "appName" m.appName ++
  requiredField "appVersion" m.appVersion ++
  requiredField "tags" m.tags ++
  requiredField "description" m.description

/-- Modelled from the spec: the structural validator §4.4,
`validate(Document) -> list of violations` (empty = valid); all rules are
collected, none short-circuits. -/
def validateStructure (validTimestamp : String → Bool) (doc : RawDocument) : List Violation :=
  nestedSectionViolations doc.sections ++
  enumViolations doc.sections ++
  duplicateIdViolations doc.sections ++
  contentViolations doc.sections ++
  metadataViolations validTimestamp doc.meta

/-! ## Graph model -/

/-- Modelled from the spec: the closed shape-kind enumeration (§3). -/
inductive NodeShape where
  | rectangle
  | rounded
  | stadium
  | subroutine
  | cylinder
  | circle
  | asymmetric
  | rhombus
  | hexagon
  | parallelogram
  | trapezoid
deriving DecidableEq

/-- A diagram node: identifier, label, shape. -/
structure GraphNode where
  id : String
  label : String
  shape : NodeShape
deriving DecidableEq

/-- A diagram edge: ordered endpoint pair with optional label. -/
structure GraphEdge where
  src : String
  dst : String
  label : Option String
deriving DecidableEq

/-- A click binding from a diagram node to a section identifier. -/
structure NodeReference where
  nodeId : String
  sectionId : String
  clickAction : String
  tooltip : Option String
deriving DecidableEq

/-- The graph derived from the diagram text (§3). -/
structure Graph where
  nodes : List GraphNode
  edges : List GraphEdge
  refs : List NodeReference
deriving DecidableEq

/-- Modelled from the spec: the kinds of graph violations (§7):
dangling-reference, duplicate-node-id, self-reference. -/
inductive GraphViolationKind where
  | danglingReference
  | duplicateNodeId
  | selfReference
deriving DecidableEq

/-- A named graph violation. -/
structure GraphViolation where
  kind : GraphViolationKind
  subject : String
deriving DecidableEq

/-- Modelled from the spec/design document (`validate_node_references`):
every NodeReference's target section identifier must exist in `sectionIds`,
otherwise a dangling-reference violation is reported (§4.5). -/
def validate_node_references (refs : List NodeReference) (sectionIds : List String) :
    List GraphViolation :=
  refs.filterMap (fun r =>
    if r.sectionId ∈ sectionIds then none
    else some ⟨GraphViolationKind.danglingReference, r.sectionId⟩)

/-- Scan for duplicated node identifiers, reporting each occurrence after the
first. -/
def dupNodeScan (seen : List String) : List GraphNode → List GraphViolation
  | [] => []
  | n :: rest =>
    if n.id ∈ seen then
      ⟨GraphViolationKind.duplicateNodeId, n.id⟩ :: dupNodeScan seen rest
    else dupNodeScan (n.id :: seen) rest

/-- Rule §4.5: no two nodes may share an identifier. -/
def duplicateNodeViolations (nodes : List GraphNode) : List GraphViolation :=
  dupNodeScan [] nodes

/-- Rule §4.5: self-loop edges are reported as self-reference violations. -/
def selfLoopViolations (edges : List GraphEdge) : List GraphViolation :=
  edges.filterMap (fun e =>
    if e.src = e.dst then some ⟨GraphViolationKind.selfReference, e.src⟩ else none)

/-- Modelled from the spec: the graph validator §4.5,
`validate(Graph, sectionIds) -> list of violations`.  Connectivity is NOT
checked here: isolated nodes are permitted, reachability is only reported by
`unreachableNodes` below and never contributes a violation. -/
def validateGraph (g : Graph) (sectionIds : List String) : List GraphViolation :=
  validate_node_references g.refs sectionIds ++
  duplicateNodeViolations g.nodes ++
  selfLoopViolations g.edges

/-- One step of reachability expansion along edges (either direction is
irrelevant for the report; the spec only offers reporting, so forward
reachability from the first node is modelled). -/
def reachStep (edges : List GraphEdge) (reached : List String) : List String :=
  reached ++ (edges.filterMap (fun e =>
    if reached.contains e.src && !reached.contains e.dst then some e.dst else none)).eraseDups

/-- Iterated reachability expansion. -/
def reachIter (edges : List GraphEdge) : Nat → List String → List String
  | 0, reached => reached
  | n + 1, reached => reachIter edges n (reachStep edges reached)

/-- Modelled from the spec: reachability reporting (offered, not enforced):
the node identifiers not reachable from the first node along directed
edges. -/
def unreachableNodes (g : Graph) : List String :=
  match g.nodes with
  | [] => []
  | n :: _ =>
    let reached := reachIter g.edges g.nodes.length [n.id]
    (g.nodes.map GraphNode.id).filter (fun i => !reached.contains i)

/-! ## Diagram grammar parser -/

/-- A word character, `\w` in the design document's regex patterns
(`[A-Za-z0-9_]`, the same class as identifier characters). -/
def isWordChar (c : Char) : Bool :=
  isIdentChar c

/-- Horizontal whitespace (plus carriage return, so that CRLF input lines
trim cleanly), `\s` in the line-level patterns. -/
def isSpaceChar (c : Char) : Bool :=
  c == ' ' || c == '\t' || c == '\r'

/-- Strip surrounding whitespace from a line. -/
def trimLine (l : List Char) : List Char :=
  ((l.dropWhile isSpaceChar).reverse.dropWhile isSpaceChar).reverse

/-- Find the first occurrence of `delim` in the input; returns the text
before it and the text after it. -/
def splitOnFirst (delim : List Char) : List Char → Option (List Char × List Char)
  | [] => none
  | c :: rest =>
    if delim.isPrefixOf (c :: rest) then some ([], (c :: rest).drop delim.length)
    else
      match splitOnFirst delim rest with
      | some (pre, post) => some (c :: pre, post)
      | none => none

/-- Modelled from the spec/design document: the shape delimiter pairs of the
node-definition patterns (§4.3).  Two-character delimiters are tried before
the one-character delimiters they extend.  The spec fixes delimiters for
these eight shapes; the remaining three shape kinds (asymmetric,
parallelogram, trapezoid) have unspecified delimiters, so their definition
lines fall under the permissive skip rule. -/
def shapeDelims : List (String × String × NodeShape) :=
  [("([", "])", NodeShape.stadium),
   ("((", "))", NodeShape.circle),
   ("[[", "]]", NodeShape.subroutine),
   ("[(", ")]", NodeShape.cylinder),
   ("\x7b\x7b", "\x7d\x7d", NodeShape.hexagon),
   ("[", "]", NodeShape.rectangle),
   ("(", ")", NodeShape.rounded),
   ("\x7b", "\x7d", NodeShape.rhombus)]

/-- Try to parse `<open>label<close>` at the head of the input for one
delimiter pair; the label is the text up to the first occurrence of the
closing delimiter and must be nonempty (the patterns use `[^...]+`). -/
def parseShape (l : List Char) :
    String × String × NodeShape → Option (String × NodeShape × List Char)
  | (o, c, shape) =>
    if o.data.isPrefixOf l then
      match splitOnFirst c.data (l.drop o.data.length) with
      | some (label, rest) =>
        if label.isEmpty then none else some (String.mk label, shape, rest)
      | none => none
    else none

/-- Try every shape delimiter pair in order. -/
def parseNodePart (l : List Char) : Option (String × NodeShape × List Char) :=
  shapeDelims.findSome? (parseShape l)

/-- Parse an endpoint of an edge line (also a standalone node definition):
a `\w+` identifier optionally followed by a shape-delimited label. -/
def parseEndpoint (l : List Char) :
    Option (String × Option (String × NodeShape) × List Char) :=
  let tid := l.takeWhile isWordChar
  let rest := l.dropWhile isWordChar
  if tid.isEmpty then none
  else
    match parseNodePart rest with
    | some (label, shape, rest') => some (String.mk tid, some (label, shape), rest')
    | none => some (String.mk tid, none, rest)

/-- Parse `-->`, optionally followed immediately by `|label|` (the labeled
edge pattern), returning the edge label and the remainder after trailing
whitespace. -/
def parseArrow (l : List Char) : Option (Option String × List Char) :=
  let l1 := l.dropWhile isSpaceChar
  if "-->".data.isPrefixOf l1 then
    match l1.drop 3 with
    | '|' :: l3 =>
      (match splitOnFirst ['|'] l3 with
       | some (label, l4) =>
         if label.isEmpty then none
         else some (some (String.mk label), l4.dropWhile isSpaceChar)
       | none => none)
    | l2 => some (none, l2.dropWhile isSpaceChar)
  else none

/-- A recognized edge line: endpoints (each possibly carrying a node
definition) and an optional label. -/
structure EdgeLine where
  srcId : String
  srcDef : Option (String × NodeShape)
  dstId : String
  dstDef : Option (String × NodeShape)
  label : Option String
deriving DecidableEq

/-- Modelled from the spec/design document: an edge line `ID --> ID` or
`ID -->|label| ID`, where each endpoint may itself be a node definition
(as in `A[Intent]-->B[Eval]`). -/
def parseEdgeLine (l : List Char) : Option EdgeLine :=
  match parseEndpoint l with
  | none => none
  | some (src, srcDef, r1) =>
    match parseArrow r1 with
    | none => none
    | some (lbl, r2) =>
      match parseEndpoint r2 with
      | none => none
      | some (dst, dstDef, r3) =>
        if (r3.dropWhile isSpaceChar).isEmpty then
          some ⟨src, srcDef, dst, dstDef, lbl⟩
        else none

/-- A standalone node-definition line: a single defined endpoint spanning
the whole line. -/
def parseNodeDefLine (l : List Char) : Option (String × String × NodeShape) :=
  match parseEndpoint l with
  | some (id, some (label, shape), rest) =>
    if (rest.dropWhile isSpaceChar).isEmpty then some (id, label, shape) else none
  | _ => none

/-- Parse a double-quoted string at the head of the input (`"([^"]+)"`). -/
def parseQuoted (l : List Char) : Option (String × List Char) :=
  match l with
  | '"' :: rest =>
    (match splitOnFirst ['"'] rest with
     | some (s, rest') => if s.isEmpty then none else some (String.mk s, rest')
     | none => none)
  | _ => none

/-- Modelled from the spec: a click action of the form `#section-id` yields
target section identifier `section-id` (leading `#` stripped, §4.3). -/
def sectionIdOfAction (action : String) : String :=
  match action.data with
  | '#' :: rest => String.mk rest
  | _ => action

/-- Modelled from the spec/design document: a click-binding line
`click ID "action" "optional-tooltip"`, producing one NodeReference. -/
def parseClickLine (l : List Char) : Option NodeReference :=
  if "click ".data.isPrefixOf l then
    let r1 := (l.drop 6).dropWhile isSpaceChar
    let tid := r1.takeWhile isWordChar
    if tid.isEmpty then none
    else
      match r1.dropWhile isWordChar with
      | c :: r2 =>
        if isSpaceChar c then
          match parseQuoted (r2.dropWhile isSpaceChar) with
          | some (action, r3) =>
            let tooltip :=
              match parseQuoted (r3.dropWhile isSpaceChar) with
              | some (tip, r4) =>
                if (r4.dropWhile isSpaceChar).isEmpty then some tip else none
              | none => none
            some { nodeId := String.mk tid,
                   sectionId := sectionIdOfAction action,
                   clickAction := action,
                   tooltip := tooltip }
          | none => none
        else none
      | [] => none
  else none

/-- First declaration wins: a node is added only when its identifier is not
yet declared (§4.3: re-declarations and later bare references never redefine
a node). -/
def addNode (g : Graph) (n : GraphNode) : Graph :=
  if g.nodes.any (fun m => m.id == n.id) then g
  else { g with nodes := g.nodes ++ [n] }

/-- Register an edge endpoint: a defined endpoint declares its node; a bare
reference to an undeclared identifier auto-creates a bare node with an empty
label (§4.3, permissive-grammar property). -/
def registerEndpoint (g : Graph) (id : String) :
    Option (String × NodeShape) → Graph
  | some (label, shape) => addNode g ⟨id, label, shape⟩
  | none => addNode g ⟨id, "", NodeShape.rectangle⟩

/-- The empty graph the parse starts from. -/
def emptyGraph : Graph := ⟨[], [], []⟩

/-- Split the diagram text into its lines (the separator is `\n`; the
line-oriented grammar of §4.3). -/
def splitLines : List Char → List (List Char)
  | [] => [[]]
  | c :: rest =>
    if c = '\n' then [] :: splitLines rest
    else
      match splitLines rest with
      | [] => [[c]]
      | first :: others => (c :: first) :: others

/-- Process one already-trimmed line of the flowchart text: the `flowchart`
direction declaration and blank lines are ignored, then click-binding, edge,
and standalone node-definition lines are recognized; any other line is
skipped, not an error. -/
def processTrimmed (g : Graph) (l : List Char) : Graph :=
  if l.isEmpty then g
  else if "flowchart".data.isPrefixOf l then g
  else
    match parseClickLine l with
    | some r => { g with refs := g.refs ++ [r] }
    | none =>
      match parseEdgeLine l with
      | some e =>
        let g1 := registerEndpoint g e.srcId e.srcDef
        let g2 := registerEndpoint g1 e.dstId e.dstDef
        { g2 with edges := g2.edges ++ [⟨e.srcId, e.dstId, e.label⟩] }
      | none =>
        match parseNodeDefLine l with
        | some (id, label, shape) => addNode g ⟨id, label, shape⟩
        | none => g

/-- Modelled from the spec: process one line of the flowchart text (§4.3),
after trimming surrounding whitespace. -/
def processLine (g : Graph) (line : List Char) : Graph :=
  processTrimmed g (trimLine line)

/-- Modelled from the spec: the diagram grammar parser §4.3 — line-oriented
and permissive, producing a Graph. -/
def parseDiagram (text : String) : Graph :=
  (splitLines text.data).foldl processLine emptyGraph

/-- The identifiers that a trimmed line declares with an explicit node
definition: a standalone node-definition line, or a defined endpoint of an
edge line. -/
def trimmedNodeDefIds (l : List Char) : List String :=
  (match parseNodeDefLine l with
   | some (id, _, _) => [id]
   | none => []) ++
  (match parseEdgeLine l with
   | some e =>
     (match e.srcDef with | some _ => [e.srcId] | none => []) ++
     (match e.dstDef with | some _ => [e.dstId] | none => [])
   | none => [])

/-- The identifiers that a line declares with an explicit node definition. -/
def lineNodeDefIds (line : List Char) : List String :=
  trimmedNodeDefIds (trimLine line)

/-- Whether the trimmed line is processed as an edge line one of whose
endpoints is a bare (label-free) reference to `id`. -/
def trimmedBareEdgeRef (id : String) (l : List Char) : Bool :=
  !l.isEmpty && !("flowchart".data.isPrefixOf l) && (parseClickLine l).isNone &&
  (match parseEdgeLine l with
   | some e => (e.srcId == id && e.srcDef.isNone) || (e.dstId == id && e.dstDef.isNone)
   | none => false)

/-- Whether the line is processed as an edge line one of whose endpoints is
a bare (label-free) reference to `id`. -/
def lineBareEdgeRef (id : String) (line : List Char) : Bool :=
  trimmedBareEdgeRef id (trimLine line)

/-! ## Document assembler -/

/-- A fully assembled, resolved section. -/
structure DocSection where
  id : String
  sectionType : String
  content : String
deriving DecidableEq

/-- Modelled from the spec: the final immutable Document (§3): metadata,
resolved sections in original order, optional graph. -/
structure Document where
  meta : Metadata
  sections : List DocSection
  graph : Option Graph
deriving DecidableEq

/-- The pipeline stages of the assembler (§4.6), in design order. -/
inductive Step where
  | parseStep
  | validateStep
  | resolveStep
  | diagramParseStep
  | graphValidateStep
  | assembleStep
deriving DecidableEq

/-- Modelled from the spec: the error taxonomy at the assembler boundary
(§7): structural parse failure, validation failure with its accumulated
violations, graph validation failure with its accumulated violations. -/
inductive AsmError where
  | parseError (msg : String)
  | validationError (violations : List Violation)
  | graphValidationError (violations : List GraphViolation)
deriving DecidableEq

/-- A pipeline computation: the stages actually executed, and the result. -/
structure Pipeline (α : Type) where
  steps : List Step
  result : Except AsmError α

/-- A single pipeline stage. -/
def stage {α : Type} (s : Step) (x : Except AsmError α) : Pipeline α :=
  ⟨[s], x⟩

/-- Sequencing: the continuation only executes (and only contributes its
steps) when the first computation succeeded. -/
def Pipeline.andThen {α β : Type} (pl : Pipeline α) (f : α → Pipeline β) : Pipeline β :=
  match pl.result with
  | Except.error e => ⟨pl.steps, Except.error e⟩
  | Except.ok a => ⟨pl.steps ++ (f a).steps, (f a).result⟩

/-- Variable resolution applied independently to every section's content
(§4.2); sections keep their order. -/
def resolveSections (doc : RawDocument) : List DocSection :=
  doc.sections.map (fun s => ⟨s.id, s.sectionType, resolve (s.content.getD "") doc.vars⟩)

/-- Modelled from the spec: the Document Assembler §4.6 (strict mode),
orchestrating parse → structural validation → variable resolution → diagram
parse → graph validation → assembly, aborting at the first failing stage. -/
def assembleDocument (validTimestamp : String → Bool) (doc : RawDocument) : Pipeline Document :=
  (stage Step.parseStep
      (match validate_flat_sections doc.sections with
       | Except.error e => Except.error (AsmError.parseError e)
       | Except.ok _ => Except.ok ())).andThen (fun _ =>
  (stage Step.validateStep
      (if validateStructure validTimestamp doc = [] then Except.ok ()
       else Except.error (AsmError.validationError
              (validateStructure validTimestamp doc)))).andThen (fun _ =>
  (stage Step.resolveStep (Except.ok (resolveSections doc))).andThen (fun rs =>
  match doc.diagram with
  | none => stage Step.assembleStep (Except.ok ⟨doc.meta, rs, none⟩)
  | some dtext =>
    (stage Step.diagramParseStep (Except.ok (parseDiagram dtext))).andThen (fun g =>
    (stage Step.graphValidateStep
        (if validateGraph g (rs.map DocSection.id) = [] then Except.ok ()
         else Except.error (AsmError.graphValidationError
                (validateGraph g (rs.map DocSection.id))))).andThen (fun _ =>
    stage Step.assembleStep (Except.ok ⟨doc.meta, rs, some g⟩))))))

/-! ### Structural validator and pipeline lemmas -/

lemma dupIdScan_eq_nil_iff (seen : List String) (ss : List RawSection) :
    dupIdScan seen ss = [] ↔
      (ss.map RawSection.id).Nodup ∧ ∀ i ∈ ss.map RawSection.id, i ∉ seen := by
  induction ss generalizing seen with
  | nil => simp [dupIdScan]
  | cons s rest ih =>
    simp only [dupIdScan]
    by_cases hc : s.id ∈ seen
    · rw [if_pos hc]
      constructor
      · intro h
        simp at h
      · rintro ⟨-, hall⟩
        exact absurd hc (hall s.id (by simp))
    · rw [if_neg hc, ih (s.id :: seen)]
      simp only [List.map_cons, List.nodup_cons, List.mem_cons]
      constructor
      · rintro ⟨hnd, hmem⟩
        refine ⟨⟨fun hin => (hmem s.id hin) (Or.inl rfl), hnd⟩, ?_⟩
        rintro i (rfl | hi)
        · exact hc
        · intro hin
          exact (hmem i hi) (Or.inr hin)
      · rintro ⟨⟨hnotin, hnd⟩, hall⟩
        refine ⟨hnd, ?_⟩
        intro i hi
        rintro (rfl | hin)
        · exact hnotin hi
        · exact hall i (Or.inr hi) hin

lemma dupIdScan_kind (seen : List String) (ss : List RawSection) :
    ∀ v ∈ dupIdScan seen ss, v.kind = ViolationKind.duplicateId := by
  induction ss generalizing seen with
  | nil => simp [dupIdScan]
  | cons s rest ih =>
    simp only [dupIdScan]
    split
    · intro v hv
      rcases List.mem_cons.mp hv with rfl | hv
      · rfl
      · exact ih seen v hv
    · exact ih _

lemma validateStructure_eq_nil {vt : String → Bool} {doc : RawDocument}
    (h : validateStructure vt doc = []) :
    duplicateIdViolations doc.sections = [] := by
  unfold validateStructure at h
  simp only [List.append_eq_nil] at h
  exact h.1.1.2

lemma assembleDocument_ok {vt : String → Bool} {doc : RawDocument} {d : Document}
    (h : (assembleDocument vt doc).result = Except.ok d) :
    validate_flat_sections doc.sections = Except.ok () ∧
    validateStructure vt doc = [] ∧
    ∀ dtext, doc.diagram = some dtext →
      validateGraph (parseDiagram dtext) ((resolveSections doc).map DocSection.id) = [] := by
  unfold assembleDocument at h
  cases hf : validate_flat_sections doc.sections with
  | error e =>
    rw [hf] at h
    simp [stage, Pipeline.andThen] at h
  | ok u =>
    cases u
    rw [hf] at h
    by_cases hv : validateStructure vt doc = []
    · refine ⟨rfl, hv, ?_⟩
      intro dtext hd
      rw [if_pos hv, hd] at h
      by_cases hg : validateGraph (parseDiagram dtext) ((resolveSections doc).map DocSection.id) = []
      · exact hg
      · exfalso
        simp [stage, Pipeline.andThen, hg] at h
    · rw [if_neg hv] at h
      simp [stage, Pipeline.andThen] at h

/-! ### Claim theorems: structural validation and assembler ordering -/

/-- **C2** Any document whose section list contains a nested section fails
the flat-section structural check with the nested-section fatal error, and
the assembler never yields a Document for it (the nesting is not silently
flattened). -/
theorem nested_section_fatal (vt : String → Bool) (doc : RawDocument)
    (h : ∃ s ∈ doc.sections, s.children ≠ []) :
    validate_flat_sections doc.sections = Except.error "Section nesting not allowed" ∧
    ∀ d, (assembleDocument vt doc).result ≠ Except.ok d := by
  have hany : doc.sections.any (fun s => !s.children.isEmpty) = true := by
    rcases h with ⟨s, hs, hne⟩
    refine List.any_eq_true.mpr ⟨s, hs, ?_⟩
    simp [List.isEmpty_iff, hne]
  have hflat : validate_flat_sections doc.sections
      = Except.error "Section nesting not allowed" := by
    unfold validate_flat_sections
    rw [if_pos hany]
  refine ⟨hflat, ?_⟩
  intro d hok
  obtain ⟨hf, -, -⟩ := assembleDocument_ok hok
  rw [hflat] at hf
  cases hf

/-- A well-formed metadata record used by concrete example documents. -/
def exampleMeta : Metadata :=
  ⟨some "Title", some "Author", some "2024-01-01T00:00:00Z",
   some "flow-writer", some "1.0", some "tags", some "desc"⟩

/-- A document with a section nested inside a section. -/
def nestedDocC2 : RawDocument :=
  ⟨exampleMeta, [],
   [⟨"intent-1", "intent", some "text", none,
     [⟨"intent-2", "intent", some "inner", none, []⟩]⟩], none⟩

/-- Witness for C2 at a concrete nested-section document. -/
theorem nested_section_fatal_witness :
    validate_flat_sections nestedDocC2.sections
      = Except.error "Section nesting not allowed" :=
  (nested_section_fatal (fun _ => true) nestedDocC2
    ⟨⟨"intent-1", "intent", some "text", none,
      [⟨"intent-2", "intent", some "inner", none, []⟩]⟩,
     by simp [nestedDocC2], by simp⟩).1

/-- **C3** The structural validator returns an empty violation list only if
section identifiers are pairwise distinct, and a document with a duplicated
section identifier yields a duplicate-id violation and is never assembled
into a Document. -/
theorem duplicate_id_validation (vt : String → Bool) (doc : RawDocument) :
    (validateStructure vt doc = [] → (doc.sections.map RawSection.id).Nodup) ∧
    (¬ (doc.sections.map RawSection.id).Nodup →
      (∃ v ∈ validateStructure vt doc, v.kind = ViolationKind.duplicateId) ∧
      ∀ d, (assembleDocument vt doc).result ≠ Except.ok d) := by
  constructor
  · intro h
    exact ((dupIdScan_eq_nil_iff [] doc.sections).mp (validateStructure_eq_nil h)).1
  · intro h
    have hne : duplicateIdViolations doc.sections ≠ [] := by
      intro he
      exact h ((dupIdScan_eq_nil_iff [] _).mp he).1
    obtain ⟨v, hv⟩ := List.exists_mem_of_ne_nil _ hne
    constructor
    · refine ⟨v, ?_, dupIdScan_kind [] _ v hv⟩
      unfold validateStructure
      simp only [List.mem_append]
      exact Or.inl (Or.inl (Or.inr hv))
    · intro d hok
      exact hne (validateStructure_eq_nil (assembleDocument_ok hok).2.1)

/-- A document declaring the section identifier `intent-1` twice. -/
def dupDocC3 : RawDocument :=
  ⟨exampleMeta, [],
   [⟨"intent-1", "intent", some "a", none, []⟩,
    ⟨"intent-1", "evaluation", some "b", none, []⟩], none⟩

/-- Witness for C3 at a concrete duplicate-identifier document. -/
theorem duplicate_id_validation_witness :
    ∃ v ∈ validateStructure (fun _ => true) dupDocC3,
      v.kind = ViolationKind.duplicateId :=
  (((duplicate_id_validation (fun _ => true) dupDocC3).2) (by decide)).1

/-- **C4** When structural validation produces a non-empty violation list,
the assembler aborts before the resolution stage and before any diagram
parsing or graph validation, with an error result. -/
theorem validator_failure_aborts_early (vt : String → Bool) (doc : RawDocument)
    (h : validateStructure vt doc ≠ []) :
    Step.resolveStep ∉ (assembleDocument vt doc).steps ∧
    Step.diagramParseStep ∉ (assembleDocument vt doc).steps ∧
    Step.graphValidateStep ∉ (assembleDocument vt doc).steps ∧
    ∃ e, (assembleDocument vt doc).result = Except.error e := by
  unfold assembleDocument
  cases hf : validate_flat_sections doc.sections with
  | error e => simp [stage, Pipeline.andThen]
  | ok u =>
    cases u
    simp [stage, Pipeline.andThen, if_neg h]

/-- Witness for C4: on the duplicate-identifier document the resolve stage
never runs. -/
theorem validator_failure_aborts_early_witness :
    Step.resolveStep ∉ (assembleDocument (fun _ => true) dupDocC3).steps :=
  (validator_failure_aborts_early (fun _ => true) dupDocC3 (by decide)).1

/-! ### Graph validator lemmas -/

lemma dupNodeScan_kind (seen : List String) (ns : List GraphNode) :
    ∀ v ∈ dupNodeScan seen ns, v.kind = GraphViolationKind.duplicateNodeId := by
  induction ns generalizing seen with
  | nil => simp [dupNodeScan]
  | cons n rest ih =>
    simp only [dupNodeScan]
    split
    · intro v hv
      rcases List.mem_cons.mp hv with rfl | hv
      · rfl
      · exact ih seen v hv
    · exact ih _

lemma dupNodeScan_eq_nil_iff (seen : List String) (ns : List GraphNode) :
    dupNodeScan seen ns = [] ↔
      (ns.map GraphNode.id).Nodup ∧ ∀ i ∈ ns.map GraphNode.id, i ∉ seen := by
  induction ns generalizing seen with
  | nil => simp [dupNodeScan]
  | cons n rest ih =>
    simp only [dupNodeScan]
    by_cases hc : n.id ∈ seen
    · rw [if_pos hc]
      constructor
      · intro h
        simp at h
      · rintro ⟨-, hall⟩
        exact absurd hc (hall n.id (by simp))
    · rw [if_neg hc, ih (n.id :: seen)]
      simp only [List.map_cons, List.nodup_cons, List.mem_cons]
      constructor
      · rintro ⟨hnd, hmem⟩
        refine ⟨⟨fun hin => (hmem n.id hin) (Or.inl rfl), hnd⟩, ?_⟩
        rintro i (rfl | hi)
        · exact hc
        · intro hin
          exact (hmem i hi) (Or.inr hin)
      · rintro ⟨⟨hnotin, hnd⟩, hall⟩
        refine ⟨hnd, ?_⟩
        intro i hi
        rintro (rfl | hin)
        · exact hnotin hi
        · exact hall i (Or.inr hi) hin

lemma selfLoopViolations_kind (es : List GraphEdge) :
    ∀ v ∈ selfLoopViolations es, v.kind = GraphViolationKind.selfReference := by
  intro v hv
  obtain ⟨e, he, hfe⟩ := List.mem_filterMap.mp hv
  by_cases h : e.src = e.dst
  · rw [if_pos h] at hfe
    cases hfe
    rfl
  · rw [if_neg h] at hfe
    cases hfe

lemma validate_node_references_mem (refs : List NodeReference) (ids : List String)
    (subj : String) :
    (⟨GraphViolationKind.danglingReference, subj⟩ : GraphViolation)
        ∈ validate_node_references refs ids
      ↔ ∃ r ∈ refs, r.sectionId = subj ∧ r.sectionId ∉ ids := by
  unfold validate_node_references
  rw [List.mem_filterMap]
  constructor
  · rintro ⟨r, hr, hfr⟩
    by_cases h : r.sectionId ∈ ids
    · rw [if_pos h] at hfr
      cases hfr
    · rw [if_neg h] at hfr
      obtain ⟨-, hsubj⟩ : GraphViolationKind.danglingReference
            = GraphViolationKind.danglingReference ∧ r.sectionId = subj := by
        simpa using hfr
      exact ⟨r, hr, hsubj, h⟩
  · rintro ⟨r, hr, rfl, h⟩
    exact ⟨r, hr, by rw [if_neg h]⟩

lemma countP_dangling (refs : List NodeReference) (ids : List String) :
    (validate_node_references refs ids).countP
        (fun v => v.kind == GraphViolationKind.danglingReference)
      = refs.countP (fun r => decide (r.sectionId ∉ ids)) := by
  induction refs with
  | nil => simp [validate_node_references]
  | cons r rest ih =>
    unfold validate_node_references at ih ⊢
    simp only [List.filterMap_cons, List.countP_cons]
    by_cases h : r.sectionId ∈ ids
    · rw [if_pos h]
      simp [h, ih]
    · rw [if_neg h]
      simp [List.countP_cons, h, ih]

/-! ### Claim theorems: graph validation -/

/-- **C5** A dangling-reference violation is reported exactly for the
NodeReferences whose target section identifier is missing from `sectionIds`
(membership-wise and count-wise), and a document whose diagram contains such
a reference is never assembled in strict mode. -/
theorem dangling_reference_validation (g : Graph) (ids : List String) :
    ((validateGraph g ids).countP
        (fun v => v.kind == GraphViolationKind.danglingReference)
      = g.refs.countP (fun r => decide (r.sectionId ∉ ids))) ∧
    (∀ subj, (⟨GraphViolationKind.danglingReference, subj⟩ : GraphViolation)
        ∈ validateGraph g ids
      ↔ ∃ r ∈ g.refs, r.sectionId = subj ∧ r.sectionId ∉ ids) ∧
    (∀ (vt : String → Bool) (doc : RawDocument) (dtext : String),
      doc.diagram = some dtext →
      (∃ r ∈ (parseDiagram dtext).refs,
        r.sectionId ∉ (resolveSections doc).map DocSection.id) →
      ∀ d, (assembleDocument vt doc).result ≠ Except.ok d) := by
  refine ⟨?_, ?_, ?_⟩
  · unfold validateGraph
    rw [List.countP_append, List.countP_append, countP_dangling]
    have h2 : (duplicateNodeViolations g.nodes).countP
        (fun v => v.kind == GraphViolationKind.danglingReference) = 0 :=
      List.countP_eq_zero.mpr (fun v hv => by simp [dupNodeScan_kind [] g.nodes v hv])
    have h3 : (selfLoopViolations g.edges).countP
        (fun v => v.kind == GraphViolationKind.danglingReference) = 0 :=
      List.countP_eq_zero.mpr (fun v hv => by simp [selfLoopViolations_kind g.edges v hv])
    rw [h2, h3]
    omega
  · intro subj
    unfold validateGraph
    simp only [List.mem_append]
    rw [validate_node_references_mem]
    constructor
    · rintro ((h | h) | h)
      · exact h
      · exact absurd (dupNodeScan_kind [] g.nodes _ h) (by simp)
      · exact absurd (selfLoopViolations_kind g.edges _ h) (by simp)
    · intro h
      exact Or.inl (Or.inl h)
  · rintro vt doc dtext hd ⟨r, hr, hnotin⟩ d hok
    have hg := (assembleDocument_ok hok).2.2 dtext hd
    have hmem : (⟨GraphViolationKind.danglingReference, r.sectionId⟩ : GraphViolation)
        ∈ validateGraph (parseDiagram dtext) ((resolveSections doc).map DocSection.id) := by
      unfold validateGraph
      simp only [List.mem_append]
      exact Or.inl (Or.inl
        ((validate_node_references_mem _ _ _).mpr ⟨r, hr, rfl, hnotin⟩))
    rw [hg] at hmem
    cases hmem

/-- The diagram text of the C5 example, whose click action targets a section
identifier that does not exist. -/
def c5Text : String := "flowchart TD\nA[Go]\nclick A \"#nope\" \"tip\""

/-- A document whose diagram references the non-existent section `nope`. -/
def c5Doc : RawDocument :=
  ⟨exampleMeta, [], [⟨"intent-1", "intent", some "x", none, []⟩], some c5Text⟩

/-- Witness for C5: the document with a dangling diagram reference is never
assembled. -/
theorem dangling_reference_validation_witness :
    (assembleDocument (fun _ => true) c5Doc).result
      ≠ Except.ok ⟨exampleMeta, [⟨"intent-1", "intent", "x"⟩], some (parseDiagram c5Text)⟩ :=
  (dangling_reference_validation (parseDiagram c5Text) ["intent-1"]).2.2
    (fun _ => true) c5Doc c5Text rfl (by decide) _

/-- **C6** The graph validator never reports connectivity: a graph that is
free of duplicate node identifiers, self-loops and dangling references
validates cleanly no matter how disconnected it is — isolated nodes are
permitted, and reachability is only reported (`unreachableNodes`), never
enforced as a violation. -/
theorem isolated_nodes_permitted (g : Graph) (ids : List String)
    (h1 : (g.nodes.map GraphNode.id).Nodup)
    (h2 : ∀ e ∈ g.edges, e.src ≠ e.dst)
    (h3 : ∀ r ∈ g.refs, r.sectionId ∈ ids) :
    validateGraph g ids = [] := by
  unfold validateGraph
  have ha : validate_node_references g.refs ids = [] :=
    List.filterMap_eq_nil_iff.mpr (fun r hr => by rw [if_pos (h3 r hr)])
  have hb : duplicateNodeViolations g.nodes = [] :=
    (dupNodeScan_eq_nil_iff [] g.nodes).mpr ⟨h1, by simp⟩
  have hc : selfLoopViolations g.edges = [] :=
    List.filterMap_eq_nil_iff.mpr (fun e he => by rw [if_neg (h2 e he)])
  rw [ha, hb, hc]
  rfl

/-- A graph with an isolated node `iso` (it occurs in no edge). -/
def c6Graph : Graph :=
  ⟨[⟨"A", "Start", NodeShape.rectangle⟩, ⟨"B", "End", NodeShape.rectangle⟩,
    ⟨"iso", "Lonely", NodeShape.rectangle⟩],
   [⟨"A", "B", none⟩], []⟩

/-- Witness for C6: `iso` touches no edge and is reported as unreachable,
yet the validator reports no violation at all. -/
theorem isolated_nodes_permitted_witness :
    (∀ e ∈ c6Graph.edges, e.src ≠ "iso" ∧ e.dst ≠ "iso") ∧
    unreachableNodes c6Graph = ["iso"] ∧
    validateGraph c6Graph [] = [] :=
  ⟨by decide, by decide,
   isolated_nodes_permitted c6Graph [] (by decide) (by decide) (by decide)⟩

/-! ### Diagram parser lemmas -/

/-- Every node bearing identifier `id` in the graph carries an empty label. -/
def EmptyLabelAt (id : String) (g : Graph) : Prop :=
  ∀ n ∈ g.nodes, n.id = id → n.label = ""

lemma addNode_nodes (g : Graph) (n : GraphNode) :
    (addNode g n).nodes = g.nodes ∨ (addNode g n).nodes = g.nodes ++ [n] := by
  unfold addNode
  split
  · exact Or.inl rfl
  · exact Or.inr rfl

lemma mem_addNode_of_mem {g : Graph} {m : GraphNode} (n : GraphNode)
    (h : m ∈ g.nodes) : m ∈ (addNode g n).nodes := by
  rcases addNode_nodes g n with h' | h' <;> rw [h']
  · exact h
  · exact List.mem_append_left _ h

lemma mem_addNode_self (g : Graph) (n : GraphNode) :
    ∃ m ∈ (addNode g n).nodes, m.id = n.id := by
  unfold addNode
  split
  · rename_i h
    obtain ⟨m, hm, he⟩ := List.any_eq_true.mp h
    exact ⟨m, hm, by simpa using he⟩
  · exact ⟨n, by simp, rfl⟩

lemma emptyLabelAt_addNode {id : String} {g : Graph} {n : GraphNode}
    (hg : EmptyLabelAt id g) (hn : n.id = id → n.label = "") :
    EmptyLabelAt id (addNode g n) := by
  intro m hm hmid
  rcases addNode_nodes g n with h' | h' <;> rw [h'] at hm
  · exact hg m hm hmid
  · rcases List.mem_append.mp hm with h | h
    · exact hg m h hmid
    · obtain rfl := List.mem_singleton.mp h
      exact hn hmid

lemma mem_registerEndpoint_of_mem {g : Graph} {m : GraphNode} (eid : String)
    (dopt : Option (String × NodeShape)) (h : m ∈ g.nodes) :
    m ∈ (registerEndpoint g eid dopt).nodes := by
  cases dopt with
  | none => exact mem_addNode_of_mem _ h
  | some p =>
    obtain ⟨label, shape⟩ := p
    exact mem_addNode_of_mem _ h

lemma registerEndpoint_id_mem (g : Graph) (eid : String)
    (dopt : Option (String × NodeShape)) :
    ∃ m ∈ (registerEndpoint g eid dopt).nodes, m.id = eid := by
  cases dopt with
  | none => exact mem_addNode_self g _
  | some p =>
    obtain ⟨label, shape⟩ := p
    exact mem_addNode_self g _

lemma emptyLabelAt_registerEndpoint {id : String} {g : Graph} (eid : String)
    (dopt : Option (String × NodeShape)) (hg : EmptyLabelAt id g)
    (h : dopt.isSome = true → eid ≠ id) :
    EmptyLabelAt id (registerEndpoint g eid dopt) := by
  cases dopt with
  | none => exact emptyLabelAt_addNode hg (fun _ => rfl)
  | some p =>
    obtain ⟨label, shape⟩ := p
    exact emptyLabelAt_addNode hg (fun hid => absurd hid (h rfl))

lemma processTrimmed_nodes_mono {g : Graph} {m : GraphNode} (l : List Char)
    (h : m ∈ g.nodes) : m ∈ (processTrimmed g l).nodes := by
  unfold processTrimmed
  by_cases h1 : l.isEmpty = true
  · rw [if_pos h1]
    exact h
  · rw [if_neg h1]
    by_cases h2 : "flowchart".data.isPrefixOf l = true
    · rw [if_pos h2]
      exact h
    · rw [if_neg h2]
      cases hc : parseClickLine l with
      | some r => exact h
      | none =>
        cases he : parseEdgeLine l with
        | some e =>
          simp only []
          exact mem_registerEndpoint_of_mem _ _ (mem_registerEndpoint_of_mem _ _ h)
        | none =>
          cases hn : parseNodeDefLine l with
          | some t =>
            obtain ⟨nid, label, shape⟩ := t
            exact mem_addNode_of_mem _ h
          | none => exact h

lemma processTrimmed_emptyLabelAt {id : String} {g : Graph} (l : List Char)
    (hg : EmptyLabelAt id g) (hdef : id ∉ trimmedNodeDefIds l) :
    EmptyLabelAt id (processTrimmed g l) := by
  unfold processTrimmed
  by_cases h1 : l.isEmpty = true
  · rw [if_pos h1]
    exact hg
  · rw [if_neg h1]
    by_cases h2 : "flowchart".data.isPrefixOf l = true
    · rw [if_pos h2]
      exact hg
    · rw [if_neg h2]
      cases hc : parseClickLine l with
      | some r => exact hg
      | none =>
        cases he : parseEdgeLine l with
        | some e =>
          have hsrc : e.srcDef.isSome = true → e.srcId ≠ id := by
            intro hs heq
            apply hdef
            unfold trimmedNodeDefIds
            rw [he]
            cases hsd : e.srcDef with
            | none => rw [hsd] at hs; cases hs
            | some q => simp [hsd, heq]
          have hdst : e.dstDef.isSome = true → e.dstId ≠ id := by
            intro hs heq
            apply hdef
            unfold trimmedNodeDefIds
            rw [he]
            cases hsd : e.dstDef with
            | none => rw [hsd] at hs; cases hs
            | some q =>
              cases hsd2 : e.srcDef <;>
                simp [hsd, hsd2, heq]
          intro m hm hmid
          exact emptyLabelAt_registerEndpoint e.dstId e.dstDef
            (emptyLabelAt_registerEndpoint e.srcId e.srcDef hg hsrc) hdst m hm hmid
        | none =>
          cases hn : parseNodeDefLine l with
          | some t =>
            obtain ⟨nid, label, shape⟩ := t
            refine emptyLabelAt_addNode hg ?_
            intro hid
            have hid2 : nid = id := hid
            exfalso
            apply hdef
            unfold trimmedNodeDefIds
            rw [hn, he]
            simp [hid2]
          | none => exact hg

lemma processTrimmed_bare_ref_mem {id : String} {g : Graph} (l : List Char)
    (h : trimmedBareEdgeRef id l = true) :
    ∃ m ∈ (processTrimmed g l).nodes, m.id = id := by
  unfold trimmedBareEdgeRef at h
  simp only [Bool.and_eq_true] at h
  obtain ⟨⟨⟨h1, h2⟩, h3⟩, h4⟩ := h
  simp only [Bool.not_eq_true', Option.isNone_iff_eq_none] at h1 h2 h3
  unfold processTrimmed
  rw [if_neg (by simp [h1]), if_neg (by simp [h2])]
  simp only [h3]
  cases he : parseEdgeLine l with
  | some e =>
    rw [he] at h4
    simp only [he]
    simp only [Bool.or_eq_true, Bool.and_eq_true, beq_iff_eq,
      Option.isNone_iff_eq_none] at h4
    rcases h4 with ⟨rfl, hdefn⟩ | ⟨rfl, hdefn⟩
    · obtain ⟨m, hm, hid⟩ := registerEndpoint_id_mem g e.srcId e.srcDef
      exact ⟨m, mem_registerEndpoint_of_mem _ _ hm, hid⟩
    · obtain ⟨m, hm, hid⟩ := registerEndpoint_id_mem
        (registerEndpoint g e.srcId e.srcDef) e.dstId e.dstDef
      exact ⟨m, hm, hid⟩
  | none =>
    rw [he] at h4
    cases h4

lemma foldl_processLine_mem {m : GraphNode} (lines : List (List Char)) (g : Graph)
    (h : m ∈ g.nodes) : m ∈ (lines.foldl processLine g).nodes := by
  induction lines generalizing g with
  | nil => exact h
  | cons line rest ih =>
    exact ih _ (processTrimmed_nodes_mono _ h)

lemma foldl_processLine_emptyLabelAt {id : String} (lines : List (List Char)) (g : Graph)
    (hg : EmptyLabelAt id g) (hdef : ∀ line ∈ lines, id ∉ lineNodeDefIds line) :
    EmptyLabelAt id (lines.foldl processLine g) := by
  induction lines generalizing g with
  | nil => exact hg
  | cons line rest ih =>
    refine ih _ (processTrimmed_emptyLabelAt _ hg ?_) ?_
    · exact hdef line (by simp)
    · exact fun l hl => hdef l (List.mem_cons_of_mem _ hl)

/-! ### Claim theorem: permissive edge endpoints -/

/-- **C7** For every diagram text containing an edge line one of whose
endpoints is a bare reference to an identifier that no line of the text
declares with a node definition, the parse still succeeds (the parser is
total) and the resulting Graph contains an auto-created bare node for that
identifier with an empty label. -/
theorem bare_node_auto_created (text : String) (id : String)
    (hedge : ∃ line ∈ splitLines text.data, lineBareEdgeRef id line = true)
    (hnodef : ∀ line ∈ splitLines text.data, id ∉ lineNodeDefIds line) :
    ∃ n ∈ (parseDiagram text).nodes, n.id = id ∧ n.label = "" := by
  obtain ⟨w, hw, hbare⟩ := hedge
  obtain ⟨l1, l2, hsplit⟩ := List.append_of_mem hw
  unfold parseDiagram
  rw [hsplit, List.foldl_append, List.foldl_cons]
  have hg1 : EmptyLabelAt id (l1.foldl processLine emptyGraph) := by
    refine foldl_processLine_emptyLabelAt l1 emptyGraph ?_ ?_
    · intro n hn
      simp [emptyGraph] at hn
    · intro l hl
      exact hnodef l (by rw [hsplit]; exact List.mem_append_left _ hl)
  have hmemw : ∃ m ∈ (processLine (l1.foldl processLine emptyGraph) w).nodes, m.id = id :=
    processTrimmed_bare_ref_mem _ hbare
  have hinvw : EmptyLabelAt id (processLine (l1.foldl processLine emptyGraph) w) :=
    processTrimmed_emptyLabelAt _ hg1 (hnodef w hw)
  have hinv : EmptyLabelAt id
      ((processLine (l1.foldl processLine emptyGraph) w |> l2.foldl processLine)) := by
    refine foldl_processLine_emptyLabelAt l2 _ hinvw ?_
    intro l hl
    exact hnodef l (by rw [hsplit]; exact List.mem_append_right _ (List.mem_cons_of_mem _ hl))
  obtain ⟨m, hm, hid⟩ := hmemw
  have hm2 := foldl_processLine_mem l2 _ hm
  exact ⟨m, hm2, hid, hinv m hm2 hid⟩

/-- Witness for C7: `B` is only ever referenced by an edge, and the parsed
graph contains it with an empty label. -/
theorem bare_node_auto_created_witness :
    ∃ n ∈ (parseDiagram "flowchart TD\nA[Start] --> B").nodes,
      n.id = "B" ∧ n.label = "" :=
  bare_node_auto_created "flowchart TD\nA[Start] --> B" "B" (by decide) (by decide)

/-! ## Frontend transforms (embedded from the JavaScript source) -/

/-- A backend section value as received by the frontend
(`src/utils/sectionTransform.js`); JavaScript fields may be absent, so they
are modelled with `Option`. -/
structure JSSection where
  id : String
  content : Option String
  section_type : Option String
  type : Option String
deriving DecidableEq

/-- A frontend block as built by `sectionsToBlocks`. -/
structure Block where
  id : String
  content : String
  isRendered : Bool
  sectionId : String
  sectionType : String
deriving DecidableEq

/-- JavaScript `a || b` on an optional string: `null`/`undefined` and the
empty string are falsy. -/
def jsOrString (a : Option String) (b : String) : String :=
  match a with
  | some str => if str = "" then b else str
  | none => b

/-- The argument of `sectionsToBlocks`: `Array.isArray` separates an array
argument from every other JavaScript value (`null`, `undefined`, an object,
a string, …). -/
inductive SectionsInput where
  | array (sections : List JSSection)
  | nonArray

/-- Embedded from `src/src/utils/sectionTransform.js`: `sectionsToBlocks`.
A non-array argument yields `[]` (after a console warning, which has no
bearing on the value); an array yields one block per section, in order. -/
def sectionsToBlocks : SectionsInput → List Block
  | SectionsInput.nonArray => []
  | SectionsInput.array sections =>
    sections.map (fun sec =>
      { id := sec.id,
        content := jsOrString sec.content "",
        isRendered := false,
        sectionId := sec.id,
        sectionType := jsOrString sec.section_type (jsOrString sec.type "unknown") })

/-- The document slice state
(`src/src/store/slices/documentSlice.js`), restricted to the field the
`deleteBlock` reducer reads and writes. -/
structure DocumentState where
  blocks : List Block
deriving DecidableEq

/-- Embedded from `src/src/store/slices/documentSlice.js`: the `deleteBlock`
reducer.  When more than one block is present it removes every block whose
`id` equals the payload's `blockId`; otherwise the state is unchanged. -/
def deleteBlock (state : DocumentState) (blockId : String) : DocumentState :=
  if state.blocks.length > 1 then
    { state with blocks := state.blocks.filter (fun b => b.id != blockId) }
  else state

/-! ### Claim theorems: frontend transforms -/

lemma jsOrString_empty (a : Option String) : jsOrString a "" = a.getD "" := by
  cases a with
  | none => rfl
  | some str =>
    show (if str = "" then "" else str) = (some str).getD ""
    by_cases h : str = ""
    · rw [if_pos h, h]
      rfl
    · rw [if_neg h]
      rfl

/-- **C9** `sectionsToBlocks` returns the empty list on any non-array input
instead of throwing; on an array it returns one block per section in the
same order, the block's `id` being the section's `id` and its `content`
being the section's content, or the empty string when the content is
absent. -/
theorem sectionsToBlocks_total_shape :
    sectionsToBlocks SectionsInput.nonArray = [] ∧
    ∀ (ss : List JSSection),
      (sectionsToBlocks (SectionsInput.array ss)).length = ss.length ∧
      (sectionsToBlocks (SectionsInput.array ss)).map Block.id = ss.map JSSection.id ∧
      (sectionsToBlocks (SectionsInput.array ss)).map Block.content
        = ss.map (fun sec => sec.content.getD "") := by
  refine ⟨rfl, fun ss => ⟨?_, ?_, ?_⟩⟩
  · simp [sectionsToBlocks]
  · simp [sectionsToBlocks]
  · simp [sectionsToBlocks, jsOrString_empty, Function.comp]

/-- A block used by the C10 states. -/
def blockA : Block := ⟨"a", "first", false, "a", "notes"⟩

/-- A second block with a distinct identifier. -/
def blockB : Block := ⟨"b", "second", false, "b", "notes"⟩

/-- A block sharing `blockA`'s identifier but with different content. -/
def blockA2 : Block := ⟨"a", "shadow", false, "a", "notes"⟩

/-- Counterexample for C10 as stated: with two blocks sharing an identifier,
one `deleteBlock` dispatch empties the block list, so the reducer does not
preserve non-emptiness on every state. -/
theorem deleteBlock_can_reach_empty :
    (deleteBlock ⟨[blockA, blockA2]⟩ "a").blocks = [] := by decide

lemma filter_ne_length {l : List Block} (blockId : String)
    (h : (l.map Block.id).Nodup) :
    l.length - 1 ≤ (l.filter (fun b => b.id != blockId)).length := by
  induction l with
  | nil => simp
  | cons b rest ih =>
    simp only [List.map_cons, List.nodup_cons] at h
    obtain ⟨hb, hrest⟩ := h
    by_cases hid : b.id = blockId
    · have hkeep : rest.filter (fun x => x.id != blockId) = rest := by
        refine List.filter_eq_self.mpr ?_
        intro x hx
        simp only [bne_iff_ne, ne_eq, decide_not, Bool.not_eq_eq_eq_not, Bool.not_true,
          decide_eq_false_iff_not]
        intro hxid
        exact hb (List.mem_map.mpr ⟨x, hx, hxid.trans hid.symm⟩)
      rw [List.filter_cons]
      simp only [hid, bne_self_eq_false, Bool.false_eq_true, if_false, hkeep]
      simp
    · rw [List.filter_cons]
      have hcond : (b.id != blockId) = true := by
        simp [hid]
      rw [if_pos hcond]
      have := ih hrest
      simp only [List.length_cons]
      omega

/-- **C10 (amended)** `deleteBlock` leaves every single-block state
unchanged; and on every state whose block identifiers are pairwise distinct
(at most one block matches the payload), deletion preserves non-emptiness of
the block list. -/
theorem deleteBlock_singleton_and_nodup_nonempty (state : DocumentState) (blockId : String) :
    (state.blocks.length = 1 → deleteBlock state blockId = state) ∧
    ((state.blocks.map Block.id).Nodup → state.blocks ≠ [] →
      (deleteBlock state blockId).blocks ≠ []) := by
  constructor
  · intro h1
    unfold deleteBlock
    rw [if_neg (by omega)]
  · intro hnd hne
    unfold deleteBlock
    split
    · rename_i hlen
      have hfl := filter_ne_length blockId hnd
      intro hnil
      simp only at hnil
      rw [hnil] at hfl
      simp at hfl
      omega
    · exact hne

/-- Witness for the amended C10 at concrete states: a singleton state is
unchanged, and a distinct-identifier two-block state stays non-empty. -/
theorem deleteBlock_singleton_and_nodup_nonempty_witness :
    deleteBlock ⟨[blockA]⟩ "a" = ⟨[blockA]⟩ ∧
    (deleteBlock ⟨[blockA, blockB]⟩ "a").blocks ≠ [] :=
  ⟨(deleteBlock_singleton_and_nodup_nonempty ⟨[blockA]⟩ "a").1 (by decide),
   (deleteBlock_singleton_and_nodup_nonempty ⟨[blockA, blockB]⟩ "a").2
     (by decide) (by decide)⟩

end FlowWriter
